import Mathlib

/-!
Verification development for the macro-dashboard signal pipeline
(`src/fetch/signals.py`).

The pipeline fetches dated numeric series, cleans them (`dropna`),
applies two statistical transforms (a z-score normalizer and an RSI(14)
momentum oscillator), derives two composite series (net liquidity and
the VIX term spread), and serializes the resulting signal records to a
JSON array.

Embedding choices:
* A date is a `Nat` (a day number; chronological order is numeric order).
* A raw fetched observation is `(Nat, Option Rat)`: `none` models a
  missing (NaN) observation in the fetched data.
* Data-pipeline arithmetic (differences, clips, rolling means, RSI)
  runs over `FV`, extended floats with exact rational payloads: the
  IEEE special values NaN and the two infinities are represented
  explicitly, since `compute_rsi` relies on division-by-zero producing
  an infinity and on NaN propagation.  All of this layer is computable.
* The z-score layer needs a square root (the standard deviation), so it
  runs over `EF`, extended floats with real payloads; `Real.sqrt` makes
  this layer noncomputable, but every gate and every series computation
  feeding it stays in the computable layer.
-/

namespace MacroDashboard

/-- Extended float with exact rational payload: the finite values plus
the IEEE special values produced by the pipeline's arithmetic. -/
inductive FV where
  | num (q : ℚ)
  | inf
  | ninf
  | nan
deriving DecidableEq

namespace FV

/-- NaN test (used by `dropna` over computed series). -/
def isNan : FV → Bool
  | nan => true
  | _ => false

/-- IEEE negation. -/
def neg : FV → FV
  | num q => num (-q)
  | inf => ninf
  | ninf => inf
  | nan => nan

/-- IEEE addition: NaN absorbs, opposite infinities give NaN. -/
def add : FV → FV → FV
  | nan, _ => nan
  | _, nan => nan
  | inf, ninf => nan
  | ninf, inf => nan
  | inf, _ => inf
  | _, inf => inf
  | ninf, _ => ninf
  | _, ninf => ninf
  | num a, num b => num (a + b)

/-- IEEE subtraction. -/
def sub (a b : FV) : FV := add a (neg b)

/-- IEEE division: NaN absorbs; `x/0` is NaN for `x = 0` and a signed
infinity otherwise (numpy semantics used by the pipeline's `rs =
avg_gain / avg_loss`). -/
def div : FV → FV → FV
  | nan, _ => nan
  | _, nan => nan
  | num a, num b =>
      if b = 0 then (if a = 0 then nan else if 0 < a then inf else ninf)
      else num (a / b)
  | num _, inf => num 0
  | num _, ninf => num 0
  | inf, num b => if 0 ≤ b then inf else ninf
  | ninf, num b => if 0 ≤ b then ninf else inf
  | inf, inf => nan
  | inf, ninf => nan
  | ninf, inf => nan
  | ninf, ninf => nan

/-- `Series.clip(lower=lo)`: elementwise max with `lo`, NaN preserved. -/
def clipLower (lo : ℚ) : FV → FV
  | num q => num (max q lo)
  | inf => inf
  | ninf => num lo
  | nan => nan

/-- `Series.clip(upper=hi)`: elementwise min with `hi`, NaN preserved. -/
def clipUpper (hi : ℚ) : FV → FV
  | num q => num (min q hi)
  | inf => num hi
  | ninf => ninf
  | nan => nan

end FV

/-- Extended float with real payload, for the z-score layer where the
standard deviation introduces a square root. -/
inductive EF where
  | num (x : ℝ)
  | inf
  | ninf
  | nan

open Classical in
/-- IEEE division on the real-payload extended floats. -/
noncomputable def EF.div : EF → EF → EF
  | nan, _ => nan
  | _, nan => nan
  | num a, num b =>
      if b = 0 then (if a = 0 then nan else if 0 < a then inf else ninf)
      else num (a / b)
  | num _, inf => num 0
  | num _, ninf => num 0
  | inf, num b => if 0 ≤ b then inf else ninf
  | ninf, num b => if 0 ≤ b then ninf else inf
  | inf, inf => nan
  | inf, ninf => nan
  | ninf, inf => nan
  | ninf, ninf => nan

/-- Injection of the computable extended floats into the real-payload ones
(the value of an RSI signal record is a computed `FV`). -/
def FV.toEF : FV → EF
  | num q => EF.num (q : ℝ)
  | inf => EF.inf
  | ninf => EF.ninf
  | nan => EF.nan

/-- `Series.mean()` of a clean (all-finite) series.  Only ever applied to
non-empty lists by the pipeline (every z-score call sits behind a
non-emptiness gate, and an empty series maps to the empty z-score series
elementwise), so the junk value at `[]` is never observed. -/
def meanQ (l : List ℚ) : ℚ := l.sum / l.length

/-- Sample variance with `ddof = 1` (the default of `Series.std()`),
meaningful for lists of length at least 2; shorter lists are handled by
`stdSeries` returning NaN. -/
def varQ (l : List ℚ) : ℚ :=
  (l.map (fun x => (x - meanQ l) ^ 2)).sum / ((l.length - 1 : ℕ) : ℚ)

/-- `Series.std()`: NaN for fewer than two observations (`ddof = 1`),
otherwise the square root of the sample variance. -/
noncomputable def stdSeries (l : List ℚ) : EF :=
  if l.length ≤ 1 then EF.nan else EF.num (Real.sqrt (varQ l))

/-- `zscore(series) = (series - series.mean()) / series.std()`,
elementwise over the supplied clean series. -/
noncomputable def zscore (l : List ℚ) : List EF :=
  l.map (fun x : ℚ => EF.div (EF.num ((x : ℝ) - (meanQ l : ℝ))) (stdSeries l))

/-- A raw fetched series: dated observations whose value may be missing. -/
abbrev RawSeries := List (ℕ × Option ℚ)

/-- `Series.dropna()` on a fetched series: keep the dated observations
whose value is present. -/
def dropna (raw : RawSeries) : List (ℕ × ℚ) :=
  raw.filterMap (fun p => p.2.map (fun v => (p.1, v)))

/-- The value column of a clean series. -/
def vals (s : List (ℕ × ℚ)) : List ℚ := s.map Prod.snd

/-- One signal record of the output document: the four fields written
for every signal, in the source's key order. -/
structure Signal where
  id : String
  value : EF
  z : EF
  desc : String

/-- `fetch_series`: the provider call sits in a `try` block whose
`except` substitutes an empty series, so a provider failure never
propagates.  The provider outcome of the single attempt is the input. -/
def fetch_series (outcome : Except String RawSeries) : RawSeries :=
  match outcome with
  | .ok data => data
  | .error _ => []

/-- `fetch_series` against a provider modelled as a map from attempt
number to outcome: the body makes exactly one call, the first. -/
def fetch_series_once (provider : ℕ → Except String RawSeries) : RawSeries :=
  fetch_series (provider 0)

/-- The shared shape of the seven simple extractors (`real_yield`,
`breakeven`, `usd`, `hy_oas`, `ig_oas`, `claims`, `vix_level`):
clean the fetched series, and if non-empty emit the positionally last
value together with the last entry of the z-score series. -/
noncomputable def simple_extract (sid sdesc : String) (raw : RawSeries) : Option Signal :=
  let s := dropna raw
  if s.isEmpty then none
  else
    some ⟨sid, EF.num (((vals s).getLastD 0 : ℚ) : ℝ),
          (zscore (vals s)).getLastD EF.nan, sdesc⟩

/-- The `real_yield` extraction block. -/
noncomputable def real_yield_extract : RawSeries → Option Signal :=
  simple_extract "real_yield"
    "10-year TIPS real yield; rising real yields pressure growth and long-duration assets."

/-- The `breakeven` extraction block. -/
noncomputable def breakeven_extract : RawSeries → Option Signal :=
  simple_extract "breakeven"
    "10-year inflation breakeven; higher breakevens imply rising inflation expectations."

/-- The `usd` extraction block. -/
noncomputable def usd_extract : RawSeries → Option Signal :=
  simple_extract "usd"
    "Trade-weighted USD (broad); a stronger dollar can be a headwind for risk assets and commodities."

/-- The `hy_oas` extraction block. -/
noncomputable def hy_oas_extract : RawSeries → Option Signal :=
  simple_extract "hy_oas"
    "High-yield credit option-adjusted spread; widening spreads suggest stress in credit markets."

/-- The `ig_oas` extraction block. -/
noncomputable def ig_oas_extract : RawSeries → Option Signal :=
  simple_extract "ig_oas"
    "Investment-grade credit spread; widening indicates risk aversion and tightening conditions."

/-- The `claims` extraction block. -/
noncomputable def claims_extract : RawSeries → Option Signal :=
  simple_extract "claims"
    "Weekly initial unemployment claims; rising claims may signal labor market weakness."

/-- The `vix_level` extraction block. -/
noncomputable def vix_level_extract : RawSeries → Option Signal :=
  simple_extract "vix_level"
    "CBOE Volatility Index (VIX); higher levels signal market stress."

/-- `series.diff()`: NaN at the first position, day-over-day differences
after it. -/
def diffFV : List ℚ → List FV
  | [] => []
  | x :: xs => FV.nan :: List.zipWith (fun b a => FV.num (b - a)) xs (x :: xs)

/-- The mean of one rolling window: the window sum divided by the window
width, in extended-float arithmetic (a NaN in the window gives NaN,
matching `Rolling.mean`). -/
def windowMean (p : ℕ) (w : List FV) : FV :=
  FV.div (w.foldr FV.add (FV.num 0)) (FV.num p)

/-- `Series.rolling(p).mean()`: NaN until a full window of `p` points is
available, then the mean of the trailing `p`-point window. -/
def rollingMean (p : ℕ) (l : List FV) : List FV :=
  (List.range l.length).map (fun i =>
    if i + 1 < p then FV.nan
    else windowMean p ((l.take (i + 1)).drop (i + 1 - p)))

/-- The gains column of `compute_rsi`: `delta.clip(lower=0)`. -/
def rsiGain (l : List ℚ) : List FV := (diffFV l).map (FV.clipLower 0)

/-- The losses column of `compute_rsi`: `-delta.clip(upper=0)`. -/
def rsiLoss (l : List ℚ) : List FV := (diffFV l).map (fun d => (FV.clipUpper 0 d).neg)

/-- `avg_gain = gain.rolling(period).mean()`. -/
def rsiAvgGain (l : List ℚ) (p : ℕ) : List FV := rollingMean p (rsiGain l)

/-- `avg_loss = loss.rolling(period).mean()`. -/
def rsiAvgLoss (l : List ℚ) (p : ℕ) : List FV := rollingMean p (rsiLoss l)

/-- The RSI formula applied to one relative-strength value:
`rsi = 100 - (100 / (1 + rs))`. -/
def rsiOf (rs : FV) : FV :=
  FV.sub (FV.num 100) (FV.div (FV.num 100) (FV.add (FV.num 1) rs))

/-- `compute_rsi(series, period)`: relative strength is the elementwise
ratio of average gain to average loss, and
`rsi = 100 - (100 / (1 + rs))`. -/
def compute_rsi (l : List ℚ) (p : ℕ := 14) : List FV :=
  (List.zipWith FV.div (rsiAvgGain l p) (rsiAvgLoss l p)).map rsiOf

/-- `dropna()` over a computed extended-float series: remove the NaN
entries (infinities, were any present, would be kept, as in pandas). -/
def dropnaFV (l : List FV) : List FV := l.filter (fun v => !v.isNan)

/-- All-finite check on a computed series, recovering the rational
payloads when every entry is finite. -/
def ratsOf : List FV → Option (List ℚ)
  | [] => some []
  | FV.num q :: xs => (ratsOf xs).map (fun qs => q :: qs)
  | _ => none

/-- `zscore` applied to a computed extended-float series (the RSI
extractor's z-score input).  On an all-finite series this is `zscore`
of the payloads.  A series containing an infinity or NaN has an
undefined mean or standard deviation, which makes every entry of
`(series - mean)/std` NaN; the fallback returns exactly that. -/
noncomputable def zscoreFV (l : List FV) : List EF :=
  match ratsOf l with
  | some qs => zscore qs
  | none => l.map (fun _ => EF.nan)

/-- The `spx_rsi14` extraction block: clean the price series, compute
RSI(14), drop the undefined entries, and if anything remains emit the
last RSI value with the z-score of the RSI series. -/
noncomputable def spx_rsi_extract (raw : RawSeries) : Option Signal :=
  let s := dropna raw
  if s.isEmpty then none
  else
    let rsi := dropnaFV (compute_rsi (vals s) 14)
    if rsi.isEmpty then none
    else
      some ⟨"spx_rsi14", (rsi.getLastD FV.nan).toEF, (zscoreFV rsi).getLastD EF.nan,
            "S&P 500 RSI (14-day); measures momentum; overbought >70, oversold <30."⟩

/-- The union of the three raw series' date indexes: the row index of
`pd.DataFrame({"walcl": walcl, "rrp": rrp, "tga": tga})`. -/
def allKeys (w r t : RawSeries) : List ℕ :=
  w.map Prod.fst ++ r.map Prod.fst ++ t.map Prod.fst

/-- The most recent frame row at or before day `d`: the index entry a
daily `resample("D").ffill()` reads its value from. -/
def prevKey (ks : List ℕ) (d : ℕ) : Option ℕ := (ks.filter (fun k => k ≤ d)).max?

/-- The cell of one column at frame row `k`: absent when the series has
no observation dated `k`, and also when that observation is itself
missing. -/
def cellAt (s : RawSeries) (k : ℕ) : Option ℚ :=
  (s.find? (fun p => p.1 = k)).bind Prod.snd

/-- The forward-filled value of one column on day `d`: the cell at the
most recent frame row at or before `d` (`resample("D").ffill()` carries
rows, not last finite values, so a missing cell stays missing until the
next row). -/
def ffillAt (ks : List ℕ) (s : RawSeries) (d : ℕ) : Option ℚ :=
  (prevKey ks d).bind (cellAt s)

/-- The daily calendar spanned by the frame: every day from the earliest
to the latest index entry. -/
def dayGrid (ks : List ℕ) : List ℕ :=
  match ks.min?, ks.max? with
  | some lo, some hi => (List.range (hi + 1 - lo)).map (fun i => lo + i)
  | _, _ => []

/-- The cleaned net-liquidity series: on each calendar day with all
three columns present after forward fill,
`walcl * 1e6 - rrp * 1e9 - tga * 1e9`; days with any column still
missing are dropped (`dropna` on the combined column). -/
def net_liquidity_series (w r t : RawSeries) : List (ℕ × ℚ) :=
  let ks := allKeys w r t
  (dayGrid ks).filterMap (fun d =>
    match ffillAt ks w d, ffillAt ks r d, ffillAt ks t d with
    | some wv, some rv, some tv =>
        some (d, wv * 1000000 - rv * 1000000000 - tv * 1000000000)
    | _, _, _ => none)

/-- The `net_liquidity` extraction block: gated on a non-empty balance
sheet fetch, then on the combined series being non-empty after the
missing-row drop. -/
noncomputable def net_liquidity_extract (w r t : RawSeries) : Option Signal :=
  if w.isEmpty then none
  else
    let nl := net_liquidity_series w r t
    if nl.isEmpty then none
    else
      some ⟨"net_liquidity", EF.num (((vals nl).getLastD 0 : ℚ) : ℝ),
            (zscore (vals nl)).getLastD EF.nan,
            "Net liquidity = Fed balance sheet minus reverse repo and Treasury cash; rising liquidity supports risk assets."⟩

/-- First value recorded for day `d` in a clean series (`0` default is
never read: callers look up days known to be present). -/
def lookupD (s : List (ℕ × ℚ)) (d : ℕ) : ℚ :=
  ((s.find? (fun p => p.1 = d)).map Prod.snd).getD 0

/-- The VIX term spread series:
`pd.DataFrame({"vix": vix, "vix3m": vix3m}).dropna()` keeps exactly the
dates carried by both columns (inner-join semantics), and the spread on
each such date is `vix - vix3m`. -/
def vix_spread (a b : List (ℕ × ℚ)) : List (ℕ × ℚ) :=
  ((a.map Prod.fst).filter (fun d => (b.map Prod.fst).contains d)).map
    (fun d => (d, lookupD a d - lookupD b d))

/-- The `vix_term` extraction block.  The gate checks that both cleaned
input series are non-empty; the indexed access `spread.iloc[-1]` is the
fallible step, an empty joined series raising `IndexError`
(`Except.error ()`). -/
noncomputable def vix_term_extract (vraw v3raw : RawSeries) : Except Unit (Option Signal) :=
  let vix := dropna vraw
  let vix3m := dropna v3raw
  if vix.isEmpty || vix3m.isEmpty then .ok none
  else
    let spread := vix_spread vix vix3m
    match (vals spread).getLast? with
    | none => .error ()
    | some v =>
        .ok (some ⟨"vix_term", EF.num (v : ℝ), (zscore (vals spread)).getLastD EF.nan,
              "VIX term structure (VIX minus VIX3M); positive spread indicates backwardation (stress)."⟩)

/-- The pipeline driver: fetch each catalog series once through
`fetch_series`, run the extractors in the source's fixed order,
collect the emitted records; an uncaught `IndexError` in the `vix_term`
block aborts the run before anything is written. -/
noncomputable def run_pipeline (provider : String → Except String RawSeries) :
    Except Unit (List Signal) :=
  let fs : String → RawSeries := fun code => fetch_series (provider code)
  let s1 := (real_yield_extract (fs "DFII10")).toList
  let s2 := (breakeven_extract (fs "T10YIE")).toList
  let s3 := (usd_extract (fs "DTWEXBGS")).toList
  let s4 := (hy_oas_extract (fs "BAMLH0A0HYM2")).toList
  let s5 := (ig_oas_extract (fs "BAMLC0A0CM")).toList
  let s6 := (net_liquidity_extract (fs "WALCL") (fs "RRPONTSYD") (fs "WTREGEN")).toList
  let s7 := (claims_extract (fs "ICSA")).toList
  let s8 := (spx_rsi_extract (fs "SP500")).toList
  let s9 := (vix_level_extract (fs "VIXCLS")).toList
  match vix_term_extract (fs "VIXCLS") (fs "VXVCLS") with
  | .error e => .error e
  | .ok s10 =>
      .ok (s1 ++ s2 ++ s3 ++ s4 ++ s5 ++ s6 ++ s7 ++ s8 ++ s9 ++ s10.toList)

/-- Lexical tokens of the serialized output document.  The writer is
`json.dump(signals, f, indent=2)`; whitespace is immaterial, and number
rendering is abstracted by carrying the numeric payload on its token. -/
inductive Tok where
  | lbrack
  | rbrack
  | lbrace
  | rbrace
  | colon
  | comma
  | tstr (s : String)
  | tnum (v : EF)

/-- The token run of one serialized signal object, keys in the
source's insertion order: id, value, z, desc. -/
def sigToks (s : Signal) : List Tok :=
  [Tok.lbrace, Tok.tstr "id", Tok.colon, Tok.tstr s.id, Tok.comma,
   Tok.tstr "value", Tok.colon, Tok.tnum s.value, Tok.comma,
   Tok.tstr "z", Tok.colon, Tok.tnum s.z, Tok.comma,
   Tok.tstr "desc", Tok.colon, Tok.tstr s.desc, Tok.rbrace]

/-- The element runs of the serialized array, comma-separated, with the
closing bracket. -/
def dump_items : List Signal → List Tok
  | [] => [Tok.rbrack]
  | [s] => sigToks s ++ [Tok.rbrack]
  | s :: b :: l => sigToks s ++ Tok.comma :: dump_items (b :: l)

/-- `json.dump` of the collected signal list: a JSON array of signal
objects. -/
def dump_signals (l : List Signal) : List Tok := Tok.lbrack :: dump_items l

/-- Parse one signal object off the front of a token run. -/
def parse_sig : List Tok → Option (Signal × List Tok)
  | Tok.lbrace :: Tok.tstr "id" :: Tok.colon :: Tok.tstr i :: Tok.comma ::
    Tok.tstr "value" :: Tok.colon :: Tok.tnum v :: Tok.comma ::
    Tok.tstr "z" :: Tok.colon :: Tok.tnum z :: Tok.comma ::
    Tok.tstr "desc" :: Tok.colon :: Tok.tstr d :: Tok.rbrace :: rest =>
      some (⟨i, v, z, d⟩, rest)
  | _ => none

/-- Parse the comma-separated element runs up to the closing bracket;
the fuel argument bounds the recursion by the token count. -/
def parse_items : ℕ → List Tok → Option (List Signal)
  | 0, _ => none
  | fuel + 1, ts =>
      match parse_sig ts with
      | none => none
      | some (s, Tok.rbrack :: []) => some [s]
      | some (s, Tok.comma :: rest) => (parse_items fuel rest).map (fun l => s :: l)
      | some _ => none

/-- `json.load` of the output document: the empty array or a
comma-separated run of signal objects. -/
def parse_signals (ts : List Tok) : Option (List Signal) :=
  match ts with
  | Tok.lbrack :: Tok.rbrack :: [] => some []
  | Tok.lbrack :: rest => parse_items rest.length rest
  | _ => none

/-! ## Serialization round trip -/

lemma parse_sig_sigToks (s : Signal) (rest : List Tok) :
    parse_sig (sigToks s ++ rest) = some (s, rest) := rfl

lemma length_dump_items_cons (s b : Signal) (l : List Signal) :
    (dump_items (s :: b :: l)).length = 18 + (dump_items (b :: l)).length := by
  simp [dump_items, sigToks]
  omega

lemma parse_items_dump_items (l : List Signal) :
    ∀ (s : Signal) (fuel : ℕ), (dump_items (s :: l)).length ≤ fuel →
      parse_items fuel (dump_items (s :: l)) = some (s :: l) := by
  induction l with
  | nil =>
      intro s fuel hf
      match fuel with
      | 0 => simp [dump_items, sigToks] at hf
      | fuel + 1 =>
          show parse_items (fuel + 1) (sigToks s ++ [Tok.rbrack]) = some [s]
          simp [parse_items, parse_sig_sigToks]
  | cons b l ih =>
      intro s fuel hf
      match fuel with
      | 0 => simp [dump_items, sigToks] at hf
      | fuel + 1 =>
          show parse_items (fuel + 1) (sigToks s ++ Tok.comma :: dump_items (b :: l)) =
            some (s :: b :: l)
          rw [length_dump_items_cons] at hf
          simp [parse_items, parse_sig_sigToks, ih b fuel (by omega)]

lemma parse_dump_signals (l : List Signal) :
    parse_signals (dump_signals l) = some l := by
  match l with
  | [] => rfl
  | s :: l =>
      have hcons : ∃ ts, dump_items (s :: l) = Tok.lbrace :: ts := by
        cases l <;> exact ⟨_, rfl⟩
      obtain ⟨ts, hts⟩ := hcons
      show parse_signals (Tok.lbrack :: dump_items (s :: l)) = some (s :: l)
      rw [hts]
      show parse_items (Tok.lbrace :: ts).length (Tok.lbrace :: ts) = some (s :: l)
      rw [← hts]
      exact parse_items_dump_items l s _ le_rfl

/-- C8: serializing the collected signal list to the output document and
parsing the document back yields a list of the same length whose records
carry identical `id` values in the same order. -/
theorem dump_parse_roundtrip (l : List Signal) :
    ∃ l2, parse_signals (dump_signals l) = some l2 ∧
      l2.length = l.length ∧ l2.map Signal.id = l.map Signal.id :=
  ⟨l, parse_dump_signals l, rfl, rfl⟩

/-! ## Fetch boundary -/

/-- C7: a provider failure of any kind is swallowed at the fetch
boundary and yields the empty series, a successful call passes its data
through unchanged, and the fetcher consults exactly the first attempt:
its result is the handled outcome of attempt `0`, whatever any later
attempt would return. -/
theorem fetch_series_spec (e : String) (data : RawSeries)
    (provider : ℕ → Except String RawSeries) :
    fetch_series (Except.error e) = [] ∧
    fetch_series (Except.ok data) = data ∧
    fetch_series_once provider = fetch_series (provider 0) :=
  ⟨rfl, rfl, rfl⟩

/-! ## Net liquidity -/

/-- C4: a date-value pair is retained in the combined net-liquidity
series exactly when the date lies on the daily calendar, all three
forward-filled inputs are present there, and the value is
`walcl * 1e6 - rrp * 1e9 - tga * 1e9` of those inputs; in particular a
date where any input is still missing after forward fill never
appears. -/
theorem net_liquidity_series_spec (w r t : RawSeries) (d : ℕ) (v : ℚ) :
    (d, v) ∈ net_liquidity_series w r t ↔
      d ∈ dayGrid (allKeys w r t) ∧
      ∃ wv rv tv : ℚ,
        ffillAt (allKeys w r t) w d = some wv ∧
        ffillAt (allKeys w r t) r d = some rv ∧
        ffillAt (allKeys w r t) t d = some tv ∧
        v = wv * 1000000 - rv * 1000000000 - tv * 1000000000 := by
  unfold net_liquidity_series
  rw [List.mem_filterMap]
  constructor
  · rintro ⟨a, ha, hf⟩
    rcases hw : ffillAt (allKeys w r t) w a with _ | wv <;>
      rcases hr : ffillAt (allKeys w r t) r a with _ | rv <;>
      rcases ht : ffillAt (allKeys w r t) t a with _ | tv <;>
      rw [hw, hr, ht] at hf <;> simp only [] at hf
    · cases hf
    · cases hf
    · cases hf
    · cases hf
    · cases hf
    · cases hf
    · cases hf
    · obtain ⟨rfl, rfl⟩ : a = d ∧ wv * 1000000 - rv * 1000000000 - tv * 1000000000 = v := by
        simpa using hf
      exact ⟨ha, wv, rv, tv, hw, hr, ht, rfl⟩
  · rintro ⟨hd, wv, rv, tv, hw, hr, ht, rfl⟩
    exact ⟨d, hd, by rw [hw, hr, ht]⟩

lemma ffillAt_nil (ks : List ℕ) (d : ℕ) : ffillAt ks [] d = none := by
  unfold ffillAt cellAt
  cases prevKey ks d <;> simp

lemma net_liquidity_series_eq_nil_of_empty (w r t : RawSeries)
    (h : r = [] ∨ t = []) : net_liquidity_series w r t = [] := by
  unfold net_liquidity_series
  rw [List.filterMap_eq_nil_iff]
  intro d _
  rcases h with rfl | rfl
  · rw [ffillAt_nil]
    cases ffillAt (allKeys w [] t) w d <;> cases ffillAt (allKeys w [] t) t d <;> rfl
  · rw [ffillAt_nil]
    cases ffillAt (allKeys w r []) w d <;> cases ffillAt (allKeys w r []) r d <;> rfl

/-- C10: when the balance-sheet series fetches non-empty but the
reverse-repo or treasury-cash series fetches empty, every combined row
is missing after alignment, so no `net_liquidity` signal is emitted. -/
theorem net_liquidity_extract_empty_input (w r t : RawSeries)
    (_hw : w ≠ []) (h : r = [] ∨ t = []) :
    net_liquidity_extract w r t = none := by
  unfold net_liquidity_extract
  rw [net_liquidity_series_eq_nil_of_empty w r t h]
  simp

/-- Witness for C10 at a concrete input: a one-point balance sheet with
an empty reverse-repo fetch yields no signal. -/
theorem net_liquidity_extract_empty_input_witness :
    ([((0 : ℕ), some (1 : ℚ))] : RawSeries) ≠ [] ∧
    net_liquidity_extract [((0 : ℕ), some (1 : ℚ))] [] [((0 : ℕ), some (3 : ℚ))] = none :=
  ⟨by decide, net_liquidity_extract_empty_input _ _ _ (by decide) (Or.inl rfl)⟩

/-! ## VIX term spread -/

lemma find?_eq_of_nodup_keys (a : List (ℕ × ℚ)) (d : ℕ) (x : ℚ)
    (ha : (a.map Prod.fst).Nodup) (hmem : (d, x) ∈ a) :
    a.find? (fun p => p.1 = d) = some (d, x) := by
  induction a with
  | nil => cases hmem
  | cons p a ih =>
      rw [List.map_cons, List.nodup_cons] at ha
      rcases List.mem_cons.mp hmem with heq | hmem2
      · rw [← heq]
        simp [List.find?]
      · have hne : p.1 ≠ d := by
          intro hfst
          exact ha.1 (hfst ▸ List.mem_map.mpr ⟨(d, x), hmem2, rfl⟩)
        rw [List.find?]
        simp only [decide_eq_true_eq, hne]
        exact ih ha.2 hmem2

lemma lookupD_eq_of_nodup_keys (a : List (ℕ × ℚ)) (d : ℕ) (x : ℚ)
    (ha : (a.map Prod.fst).Nodup) (hmem : (d, x) ∈ a) : lookupD a d = x := by
  unfold lookupD
  rw [find?_eq_of_nodup_keys a d x ha hmem]
  rfl

/-- C5: under unique dates in each cleaned input, the spread series
carries exactly the dates present in both the VIX and the VIX3M series
(inner-join semantics), and on each shared date its value is
`vix - vix3m`; a date present in only one input never appears. -/
theorem vix_spread_spec (a b : List (ℕ × ℚ))
    (ha : (a.map Prod.fst).Nodup) (hb : (b.map Prod.fst).Nodup) :
    (∀ d : ℕ, (∃ v, (d, v) ∈ vix_spread a b) ↔
       d ∈ a.map Prod.fst ∧ d ∈ b.map Prod.fst) ∧
    (∀ (d : ℕ) (x y : ℚ), (d, x) ∈ a → (d, y) ∈ b →
       (d, x - y) ∈ vix_spread a b) := by
  constructor
  · intro d
    constructor
    · rintro ⟨v, hv⟩
      unfold vix_spread at hv
      obtain ⟨d0, hd0, heq⟩ := List.mem_map.mp hv
      obtain ⟨rfl, -⟩ : d0 = d ∧ lookupD a d0 - lookupD b d0 = v := by
        simpa using heq
      have := List.mem_filter.mp hd0
      exact ⟨this.1, by simpa using this.2⟩
    · rintro ⟨hda, hdb⟩
      refine ⟨lookupD a d - lookupD b d, ?_⟩
      unfold vix_spread
      exact List.mem_map.mpr ⟨d, List.mem_filter.mpr ⟨hda, by simpa using hdb⟩, rfl⟩
  · intro d x y hxa hyb
    have hda : d ∈ a.map Prod.fst := List.mem_map.mpr ⟨(d, x), hxa, rfl⟩
    have hdb : d ∈ b.map Prod.fst := List.mem_map.mpr ⟨(d, y), hyb, rfl⟩
    have hmem : d ∈ (a.map Prod.fst).filter (fun d => (b.map Prod.fst).contains d) :=
      List.mem_filter.mpr ⟨hda, by simpa using hdb⟩
    have : (d, lookupD a d - lookupD b d) ∈ vix_spread a b :=
      List.mem_map.mpr ⟨d, hmem, rfl⟩
    rwa [lookupD_eq_of_nodup_keys a d x ha hxa,
         lookupD_eq_of_nodup_keys b d y hb hyb] at this

/-- Witness for C5: two-point VIX against a one-point VIX3M sharing one
date. -/
theorem vix_spread_spec_witness :
    (([((0 : ℕ), (20 : ℚ)), (1, 22)] : List (ℕ × ℚ)).map Prod.fst).Nodup ∧
    (([((1 : ℕ), (21 : ℚ))] : List (ℕ × ℚ)).map Prod.fst).Nodup ∧
    ((∀ d : ℕ, (∃ v, (d, v) ∈ vix_spread [((0 : ℕ), (20 : ℚ)), (1, 22)] [((1 : ℕ), (21 : ℚ))]) ↔
        d ∈ ([((0 : ℕ), (20 : ℚ)), (1, 22)] : List (ℕ × ℚ)).map Prod.fst ∧
        d ∈ ([((1 : ℕ), (21 : ℚ))] : List (ℕ × ℚ)).map Prod.fst) ∧
     (∀ (d : ℕ) (x y : ℚ),
        (d, x) ∈ ([((0 : ℕ), (20 : ℚ)), (1, 22)] : List (ℕ × ℚ)) →
        (d, y) ∈ ([((1 : ℕ), (21 : ℚ))] : List (ℕ × ℚ)) →
        (d, x - y) ∈ vix_spread [((0 : ℕ), (20 : ℚ)), (1, 22)] [((1 : ℕ), (21 : ℚ))])) :=
  ⟨by decide, by decide, vix_spread_spec _ _ (by decide) (by decide)⟩

/-- C6 (code bug): with both cleaned series non-empty but sharing no
date, the inner join is empty and the unguarded `spread.iloc[-1]`
access raises, so a full run with such inputs aborts with no output
written, contrary to the spec's always-produces-an-array behavior. -/
theorem vix_term_index_error :
    dropna [((0 : ℕ), some (20 : ℚ))] ≠ [] ∧
    dropna [((1 : ℕ), some (18 : ℚ))] ≠ [] ∧
    vix_term_extract [((0 : ℕ), some (20 : ℚ))] [((1 : ℕ), some (18 : ℚ))] =
      Except.error () ∧
    run_pipeline (fun code =>
      if code = "VIXCLS" then Except.ok [((0 : ℕ), some (20 : ℚ))]
      else if code = "VXVCLS" then Except.ok [((1 : ℕ), some (18 : ℚ))]
      else Except.error "HTTPError") = Except.error () :=
  ⟨by decide, by decide, rfl, rfl⟩

/-! ## Simple extractors -/

lemma dropna_keys_sublist (raw : RawSeries) :
    ((dropna raw).map Prod.fst).Sublist (raw.map Prod.fst) := by
  induction raw with
  | nil => exact List.Sublist.refl _
  | cons p raw ih =>
      rcases p with ⟨d, v⟩
      rcases v with _ | q
      · exact List.Sublist.cons d ih
      · exact List.Sublist.cons₂ d ih

lemma getLast_fst_max (l : List (ℕ × ℚ)) (h : l ≠ [])
    (hp : l.Pairwise (fun p q => p.1 < q.1)) :
    ∀ q ∈ l, q.1 ≤ (l.getLast h).1 := by
  induction l with
  | nil => cases h rfl
  | cons p l ih =>
      intro q hq
      rcases List.mem_cons.mp hq with rfl | hq2
      · match l with
        | [] => exact le_rfl
        | b :: l =>
            have hlt : q.1 < ((b :: l).getLast (by simp)).1 :=
              (List.pairwise_cons.mp hp).1 _ (List.getLast_mem _)
            simpa [List.getLast_cons] using hlt.le
      · match l with
        | [] => cases hq2
        | b :: l =>
            have := ih (by simp) (List.pairwise_cons.mp hp).2 q hq2
            simpa [List.getLast_cons] using this

lemma getLastD_map_of_ne_nil {α β : Type} (f : α → β) (l : List α)
    (h : l ≠ []) (d : β) : (l.map f).getLastD d = f (l.getLast h) := by
  rw [List.getLastD_eq_getLast?, List.getLast?_map, List.getLast?_eq_getLast l h]
  rfl

/-- C1: for any simple extractor instance, when the cleaned series is
non-empty (dates strictly increasing, as fetched), a signal is emitted
whose `value` is the last chronological observation of the cleaned
series — an observation of the series that every date weakly precedes —
and whose `z` is `(value - mean) / stddev`, mean and standard deviation
taken over the entire cleaned series. -/
theorem simple_extract_spec (sid sdesc : String) (raw : RawSeries)
    (hsorted : (raw.map Prod.fst).Chain' (· < ·))
    (hne : dropna raw ≠ []) :
    ∃ p : ℕ × ℚ, p ∈ dropna raw ∧ (∀ q ∈ dropna raw, q.1 ≤ p.1) ∧
      simple_extract sid sdesc raw =
        some ⟨sid, EF.num ((p.2 : ℚ) : ℝ),
              EF.div (EF.num ((p.2 : ℝ) - (meanQ (vals (dropna raw)) : ℝ)))
                     (stdSeries (vals (dropna raw))), sdesc⟩ := by
  refine ⟨(dropna raw).getLast hne, List.getLast_mem hne, ?_, ?_⟩
  · have hpair : ((dropna raw).map Prod.fst).Pairwise (· < ·) :=
      ((List.chain'_iff_pairwise.mp hsorted).sublist (dropna_keys_sublist raw))
    exact getLast_fst_max _ hne (List.pairwise_map.mp hpair)
  · unfold simple_extract
    rw [if_neg (by simpa using hne)]
    have hvals : vals (dropna raw) ≠ [] := by
      simpa [vals] using hne
    congr 1
    have hlast : ∀ d : ℚ, (vals (dropna raw)).getLastD d = ((dropna raw).getLast hne).2 :=
      fun d => getLastD_map_of_ne_nil Prod.snd (dropna raw) hne d
    congr 1
    · rw [hlast 0]
    · rw [zscore, getLastD_map_of_ne_nil _ _ hvals,
        show (vals (dropna raw)).getLast hvals = (vals (dropna raw)).getLastD 0 by
          rw [List.getLastD_eq_getLast?, List.getLast?_eq_getLast _ hvals]; rfl,
        hlast 0]

/-- Witness for C1: a two-point series with ascending dates. -/
theorem simple_extract_spec_witness :
    (([((0 : ℕ), some (1 : ℚ)), (1, some 3)] : RawSeries).map Prod.fst).Chain' (· < ·) ∧
    dropna [((0 : ℕ), some (1 : ℚ)), (1, some 3)] ≠ [] ∧
    (∃ p : ℕ × ℚ, p ∈ dropna [((0 : ℕ), some (1 : ℚ)), (1, some 3)] ∧
      (∀ q ∈ dropna [((0 : ℕ), some (1 : ℚ)), (1, some 3)], q.1 ≤ p.1) ∧
      simple_extract "real_yield" "d" [((0 : ℕ), some (1 : ℚ)), (1, some 3)] =
        some ⟨"real_yield", EF.num ((p.2 : ℚ) : ℝ),
              EF.div (EF.num ((p.2 : ℝ) -
                       (meanQ (vals (dropna [((0 : ℕ), some (1 : ℚ)), (1, some 3)])) : ℝ)))
                     (stdSeries (vals (dropna [((0 : ℕ), some (1 : ℚ)), (1, some 3)]))),
              "d"⟩) :=
  ⟨by simp, by decide, simple_extract_spec "real_yield" "d" _ (by simp) (by decide)⟩

/-! ## Constant series: zero variance makes the z-score NaN -/

lemma meanQ_replicate (n : ℕ) (q : ℚ) (hn : n ≠ 0) :
    meanQ (List.replicate n q) = q := by
  unfold meanQ
  have hnq : (n : ℚ) ≠ 0 := by exact_mod_cast hn
  rw [List.sum_replicate, List.length_replicate, nsmul_eq_mul]
  field_simp

lemma varQ_replicate (n : ℕ) (q : ℚ) (hn : n ≠ 0) :
    varQ (List.replicate n q) = 0 := by
  unfold varQ
  rw [meanQ_replicate n q hn, List.map_replicate]
  simp

lemma zscore_getLastD_const (n : ℕ) (q : ℚ) (h2 : 2 ≤ n) :
    (zscore (List.replicate n q)).getLastD EF.nan = EF.nan := by
  have hne : List.replicate n q ≠ [] := by
    simp only [ne_eq, List.replicate_eq_nil_iff]
    omega
  rw [zscore, getLastD_map_of_ne_nil _ _ hne]
  have hlast : (List.replicate n q).getLast hne = q :=
    List.eq_of_mem_replicate (List.getLast_mem hne)
  have hstd : stdSeries (List.replicate n q) = EF.num 0 := by
    unfold stdSeries
    rw [if_neg (by simp; omega), varQ_replicate n q (by omega)]
    norm_num
  rw [hlast, meanQ_replicate n q (by omega), hstd]
  simp [EF.div]

lemma simple_extract_const (sid sdesc : String) (raw : RawSeries) (n : ℕ) (q : ℚ)
    (h2 : 2 ≤ n) (hvals : vals (dropna raw) = List.replicate n q) :
    simple_extract sid sdesc raw = some ⟨sid, EF.num (q : ℝ), EF.nan, sdesc⟩ := by
  unfold simple_extract
  have hne : ¬(dropna raw).isEmpty = true := by
    intro h
    rw [List.isEmpty_iff] at h
    rw [h] at hvals
    simp only [vals, List.map_nil] at hvals
    have := congrArg List.length hvals
    simp at this
    omega
  rw [if_neg hne, hvals, zscore_getLastD_const n q h2]
  have hl : (List.replicate n q).getLastD 0 = q := by
    rw [List.getLastD_eq_getLast?,
      List.getLast?_eq_getLast _ (by simp only [ne_eq, List.replicate_eq_nil_iff]; omega)]
    simp only [Option.getD_some]
    exact List.eq_of_mem_replicate (List.getLast_mem _)
  rw [hl]

/-- C9: a 20-point constant real-yield series of value 2.0 emits a
`real_yield` signal with `value = 2.0` and an undefined (NaN) z-score,
the constant series having zero standard deviation. -/
theorem real_yield_const_spec :
    real_yield_extract ((List.range 20).map (fun i => (i, some (2 : ℚ)))) =
      some ⟨"real_yield", EF.num 2, EF.nan,
        "10-year TIPS real yield; rising real yields pressure growth and long-duration assets."⟩ := by
  have h := simple_extract_const "real_yield"
    "10-year TIPS real yield; rising real yields pressure growth and long-duration assets."
    ((List.range 20).map (fun i => (i, some (2 : ℚ)))) 20 2 (by omega) (by decide)
  rw [real_yield_extract, h]
  norm_num

/-- Counterexample to C2 as stated: a two-point constant series is
emitted (its cleaned series is non-empty), yet the emitted record's `z`
field is NaN — an emitted signal can carry an undefined `z`. -/
theorem real_yield_nan_z_emitted :
    real_yield_extract [((0 : ℕ), some (1 : ℚ)), (1, some 1)] =
      some ⟨"real_yield", EF.num 1, EF.nan,
        "10-year TIPS real yield; rising real yields pressure growth and long-duration assets."⟩ := by
  have h := simple_extract_const "real_yield"
    "10-year TIPS real yield; rising real yields pressure growth and long-duration assets."
    [((0 : ℕ), some (1 : ℚ)), (1, some 1)] 2 1 (by omega) (by decide)
  rw [real_yield_extract, h]
  norm_num

/-! ## Emission guard -/

lemma getLastD_mem {α : Type} (l : List α) (h : l ≠ []) (d : α) : l.getLastD d ∈ l := by
  rw [List.getLastD_eq_getLast?, List.getLast?_eq_getLast _ h]
  exact List.getLast_mem h

lemma toEF_ne_nan_of_not_isNan (v : FV) (h : v.isNan = false) : v.toEF ≠ EF.nan := by
  cases v <;> simp_all [FV.toEF, FV.isNan]

/-- C2 (amended): every extractor appends a record only when its
underlying cleaned series is non-empty, and an emitted record's `value`
field is never NaN; the `z` field, however, can be NaN (zero variance
or a single observation), as `real_yield_nan_z_emitted` exhibits. -/
theorem extract_emit_guard :
    (∀ (sid sdesc : String) (raw : RawSeries) (s : Signal),
        simple_extract sid sdesc raw = some s →
        dropna raw ≠ [] ∧ s.value ≠ EF.nan) ∧
    (∀ (raw : RawSeries) (s : Signal), spx_rsi_extract raw = some s →
        dropnaFV (compute_rsi (vals (dropna raw)) 14) ≠ [] ∧ s.value ≠ EF.nan) ∧
    (∀ (w r t : RawSeries) (s : Signal), net_liquidity_extract w r t = some s →
        net_liquidity_series w r t ≠ [] ∧ s.value ≠ EF.nan) ∧
    (∀ (a b : RawSeries) (os : Option Signal) (s : Signal),
        vix_term_extract a b = Except.ok os → os = some s →
        vix_spread (dropna a) (dropna b) ≠ [] ∧ s.value ≠ EF.nan) := by
  refine ⟨?_, ?_, ?_, ?_⟩
  · intro sid sdesc raw s h
    unfold simple_extract at h
    dsimp only at h
    split at h
    · cases h
    · rename_i hcond
      injection h with h
      subst h
      exact ⟨by simpa [List.isEmpty_iff] using hcond, by simp⟩
  · intro raw s h
    unfold spx_rsi_extract at h
    dsimp only at h
    split at h
    · cases h
    · split at h
      · cases h
      · rename_i hcond
        injection h with h
        subst h
        refine ⟨by simpa [List.isEmpty_iff] using hcond, ?_⟩
        apply toEF_ne_nan_of_not_isNan
        have hmem := getLastD_mem _ (by simpa [List.isEmpty_iff] using hcond) FV.nan
        have := List.mem_filter.mp hmem
        simpa using this.2
  · intro w r t s h
    unfold net_liquidity_extract at h
    dsimp only at h
    split at h
    · cases h
    · split at h
      · cases h
      · rename_i hcond
        injection h with h
        subst h
        exact ⟨by simpa [List.isEmpty_iff] using hcond, by simp⟩
  · intro a b os s h hos
    unfold vix_term_extract at h
    dsimp only at h
    split at h
    · injection h with h
      rw [← h] at hos
      cases hos
    · split at h
      · cases h
      · rename_i v hlast
        injection h with h
        rw [← h] at hos
        injection hos with hos
        subst hos
        refine ⟨?_, by simp⟩
        intro hnil
        rw [hnil] at hlast
        cases hlast

/-- Witness for C2's amended statement: the first conjunct applied to a
concrete one-point series. -/
theorem extract_emit_guard_witness :
    dropna [((0 : ℕ), some (1 : ℚ))] ≠ [] ∧
    (⟨"usd",
      EF.num (((vals (dropna [((0 : ℕ), some (1 : ℚ))])).getLastD 0 : ℚ) : ℝ),
      (zscore (vals (dropna [((0 : ℕ), some (1 : ℚ))]))).getLastD EF.nan,
      "d"⟩ : Signal).value ≠ EF.nan :=
  extract_emit_guard.1 "usd" "d" _ _ rfl

/-! ## RSI bounds -/

/-- The values the RSI data path produces below the division: NaN or a
non-negative finite value. -/
def Good (v : FV) : Prop := v = FV.nan ∨ ∃ q : ℚ, 0 ≤ q ∧ v = FV.num q

lemma add_nan_right (a : FV) : a.add FV.nan = FV.nan := by cases a <;> rfl

lemma add_nan_left (a : FV) : FV.nan.add a = FV.nan := by cases a <;> rfl

lemma div_nan_left (a : FV) : FV.nan.div a = FV.nan := by cases a <;> rfl

lemma div_nan_right (a : FV) : a.div FV.nan = FV.nan := by cases a <;> rfl

lemma exists_of_mem_zipWith {α β γ : Type} {f : α → β → γ} {c : γ} :
    ∀ {as : List α} {bs : List β}, c ∈ List.zipWith f as bs →
      ∃ a b, a ∈ as ∧ b ∈ bs ∧ c = f a b := by
  intro as
  induction as with
  | nil => intro bs h; cases h
  | cons a as ih =>
      intro bs h
      cases bs with
      | nil => cases h
      | cons b bs =>
          rcases List.mem_cons.mp h with rfl | h2
          · exact ⟨a, b, List.mem_cons_self a as, List.mem_cons_self b bs, rfl⟩
          · obtain ⟨a1, b1, ha, hb, rfl⟩ := ih h2
            exact ⟨a1, b1, List.mem_cons_of_mem _ ha, List.mem_cons_of_mem _ hb, rfl⟩

lemma good_foldr_add (w : List FV) (hw : ∀ v ∈ w, Good v) :
    Good (w.foldr FV.add (FV.num 0)) := by
  induction w with
  | nil => exact Or.inr ⟨0, le_rfl, rfl⟩
  | cons a w ih =>
      have ha := hw a (List.mem_cons_self a w)
      have hrest := ih (fun v hv => hw v (List.mem_cons_of_mem _ hv))
      rw [List.foldr_cons]
      rcases ha with rfl | ⟨p, hp, rfl⟩
      · exact Or.inl (add_nan_left _)
      · rcases hrest with hnan | ⟨r, hr, hEq⟩
        · rw [hnan, add_nan_right]
          exact Or.inl rfl
        · rw [hEq]
          exact Or.inr ⟨p + r, by positivity, rfl⟩

lemma good_windowMean (p : ℕ) (hp : 0 < p) (w : List FV) (hw : ∀ v ∈ w, Good v) :
    Good (windowMean p w) := by
  unfold windowMean
  rcases good_foldr_add w hw with hnan | ⟨q, hq, hEq⟩
  · rw [hnan]
    exact Or.inl rfl
  · rw [hEq]
    have hpq : ((p : ℚ)) ≠ 0 := by positivity
    refine Or.inr ⟨q / p, by positivity, ?_⟩
    simp [FV.div, hpq]

lemma good_rollingMean (p : ℕ) (hp : 0 < p) (l : List FV) (hl : ∀ v ∈ l, Good v) :
    ∀ v ∈ rollingMean p l, Good v := by
  intro v hv
  unfold rollingMean at hv
  obtain ⟨i, -, rfl⟩ := List.mem_map.mp hv
  split
  · exact Or.inl rfl
  · exact good_windowMean p hp _ (fun u hu =>
      hl u (List.mem_of_mem_take (List.mem_of_mem_drop hu)))

lemma diffFV_cases (l : List ℚ) : ∀ v ∈ diffFV l, v = FV.nan ∨ ∃ q : ℚ, v = FV.num q := by
  intro v hv
  match l with
  | [] => cases hv
  | x :: xs =>
      rcases List.mem_cons.mp hv with rfl | h2
      · exact Or.inl rfl
      · obtain ⟨b1, a1, -, -, rfl⟩ := exists_of_mem_zipWith h2
        exact Or.inr ⟨b1 - a1, rfl⟩

lemma good_rsiGain (l : List ℚ) : ∀ v ∈ rsiGain l, Good v := by
  intro v hv
  unfold rsiGain at hv
  obtain ⟨d, hd, rfl⟩ := List.mem_map.mp hv
  rcases diffFV_cases l d hd with rfl | ⟨q, rfl⟩
  · exact Or.inl rfl
  · exact Or.inr ⟨max q 0, le_max_right _ _, rfl⟩

lemma good_rsiLoss (l : List ℚ) : ∀ v ∈ rsiLoss l, Good v := by
  intro v hv
  unfold rsiLoss at hv
  obtain ⟨d, hd, rfl⟩ := List.mem_map.mp hv
  rcases diffFV_cases l d hd with rfl | ⟨q, rfl⟩
  · exact Or.inl rfl
  · exact Or.inr ⟨-(min q 0), by simp [min_le_right q 0], rfl⟩

lemma div_good_cases (g lv : FV) (hg : Good g) (hl : Good lv) :
    FV.div g lv = FV.nan ∨
    (FV.div g lv = FV.inf ∧ ∃ a : ℚ, 0 < a ∧ g = FV.num a ∧ lv = FV.num 0) ∨
    ∃ r : ℚ, 0 ≤ r ∧ FV.div g lv = FV.num r := by
  rcases hg with rfl | ⟨a, ha, rfl⟩
  · exact Or.inl (div_nan_left _)
  · rcases hl with rfl | ⟨b, hb, rfl⟩
    · exact Or.inl (div_nan_right _)
    · by_cases hb0 : b = 0
      · subst hb0
        by_cases ha0 : a = 0
        · subst ha0
          exact Or.inl (by simp [FV.div])
        · have ha' : 0 < a := lt_of_le_of_ne ha (Ne.symm ha0)
          exact Or.inr (Or.inl ⟨by simp [FV.div, ha0, ha'], a, ha', rfl, rfl⟩)
      · exact Or.inr (Or.inr ⟨a / b, div_nonneg ha hb, by simp [FV.div, hb0]⟩)

lemma rsiOf_nan : rsiOf FV.nan = FV.nan := rfl

lemma rsiOf_inf : rsiOf FV.inf = FV.num 100 := by
  norm_num [rsiOf, FV.sub, FV.add, FV.div, FV.neg]

lemma rsiOf_num (r : ℚ) (hr : 0 ≤ r) :
    rsiOf (FV.num r) = FV.num (100 - 100 / (1 + r)) := by
  have h1 : (1 : ℚ) + r ≠ 0 := by positivity
  simp [rsiOf, FV.sub, FV.add, FV.div, FV.neg, h1, sub_eq_add_neg]

lemma rsi_formula_bounds (r : ℚ) (hr : 0 ≤ r) :
    0 ≤ 100 - 100 / (1 + r) ∧ 100 - 100 / (1 + r) ≤ 100 := by
  have h1 : (0 : ℚ) < 1 + r := by positivity
  constructor
  · have hle : 100 / (1 + r) ≤ 100 := by
      rw [div_le_iff₀ h1]
      nlinarith
    linarith
  · have hpos : 0 < 100 / (1 + r) := by positivity
    linarith

lemma rsi_elem_bounds (g lv : FV) (hg : Good g) (hl : Good lv) (q : ℚ)
    (h : rsiOf (FV.div g lv) = FV.num q) : 0 ≤ q ∧ q ≤ 100 := by
  rcases div_good_cases g lv hg hl with hnan | ⟨hinf, -⟩ | ⟨r, hr, hEq⟩
  · rw [hnan, rsiOf_nan] at h
    cases h
  · rw [hinf, rsiOf_inf] at h
    injection h with h
    subst h
    norm_num
  · rw [hEq, rsiOf_num r hr] at h
    injection h with h
    subst h
    exact rsi_formula_bounds r hr

lemma nan_mem_foldr (w : List FV) (h : FV.nan ∈ w) :
    w.foldr FV.add (FV.num 0) = FV.nan := by
  induction w with
  | nil => cases h
  | cons a w ih =>
      rw [List.foldr_cons]
      rcases List.mem_cons.mp h with rfl | h2
      · exact add_nan_left _
      · rw [ih h2, add_nan_right]

lemma windowMean_nan (p : ℕ) (w : List FV) (h : FV.nan ∈ w) :
    windowMean p w = FV.nan := by
  unfold windowMean
  rw [nan_mem_foldr w h]
  rfl

lemma rollingMean_getElem? (p : ℕ) (l : List FV) (i : ℕ) (hi : i < l.length) :
    (rollingMean p l)[i]? = some (if i + 1 < p then FV.nan
      else windowMean p ((l.take (i + 1)).drop (i + 1 - p))) := by
  unfold rollingMean
  rw [List.getElem?_map, List.getElem?_range hi]
  rfl

lemma length_rsiGain (l : List ℚ) : (rsiGain l).length = l.length := by
  cases l <;> simp [rsiGain, diffFV]

lemma compute_rsi_nan_before (l : List ℚ) (p : ℕ) (_hp : 0 < p) (i : ℕ) (hip : i < p)
    (v : FV) (hv : (compute_rsi l p)[i]? = some v) : v = FV.nan := by
  unfold compute_rsi at hv
  rw [List.getElem?_map] at hv
  cases hz : (List.zipWith FV.div (rsiAvgGain l p) (rsiAvgLoss l p))[i]? with
  | none =>
      rw [hz] at hv
      cases hv
  | some rs =>
      rw [hz] at hv
      injection hv with hv
      obtain ⟨gv, lv, hg, -, hrs⟩ := List.getElem?_zipWith_eq_some.mp hz
      have hi : i < (rsiGain l).length := by
        have hlen : i < (rsiAvgGain l p).length := (List.getElem?_eq_some_iff.mp hg).1
        simpa [rsiAvgGain, rollingMean] using hlen
      rw [rsiAvgGain, rollingMean_getElem? p _ i hi] at hg
      injection hg with hg
      by_cases hlt : i + 1 < p
      · rw [if_pos hlt] at hg
        rw [← hv, ← hrs, ← hg, div_nan_left, rsiOf_nan]
      · rw [if_neg hlt] at hg
        have hi1 : i + 1 - p = 0 := by omega
        rw [hi1, List.drop_zero] at hg
        cases hL : l with
        | nil =>
            rw [hL] at hi
            simp [rsiGain, diffFV] at hi
        | cons x xs =>
            rw [hL] at hg
            have hnanmem : FV.nan ∈ (rsiGain (x :: xs)).take (i + 1) := by
              show FV.nan ∈ (FV.nan :: ((List.zipWith (fun b a => FV.num (b - a)) xs (x :: xs)).map
                (FV.clipLower 0))).take (i + 1)
              rw [List.take_succ_cons]
              exact List.mem_cons_self _ _
            rw [windowMean_nan p _ hnanmem] at hg
            rw [← hv, ← hrs, ← hg, div_nan_left, rsiOf_nan]

lemma compute_rsi_mem_bounds (l : List ℚ) (p : ℕ) (hp : 0 < p) :
    ∀ v ∈ compute_rsi l p, ∀ q : ℚ, v = FV.num q → 0 ≤ q ∧ q ≤ 100 := by
  intro v hv q hq
  unfold compute_rsi at hv
  obtain ⟨rs, hrs, rfl⟩ := List.mem_map.mp hv
  obtain ⟨gv, lv, hgm, hlm, rfl⟩ := exists_of_mem_zipWith hrs
  have hgood_g : Good gv := good_rollingMean p hp _ (good_rsiGain l) gv hgm
  have hgood_l : Good lv := good_rollingMean p hp _ (good_rsiLoss l) lv hlm
  exact rsi_elem_bounds gv lv hgood_g hgood_l q hq

lemma compute_rsi_hundred_iff (l : List ℚ) (p : ℕ) (hp : 0 < p) (i : ℕ) :
    (compute_rsi l p)[i]? = some (FV.num 100) ↔
      ∃ g : ℚ, 0 < g ∧ (rsiAvgGain l p)[i]? = some (FV.num g) ∧
        (rsiAvgLoss l p)[i]? = some (FV.num 0) := by
  constructor
  · intro h
    unfold compute_rsi at h
    rw [List.getElem?_map] at h
    cases hz : (List.zipWith FV.div (rsiAvgGain l p) (rsiAvgLoss l p))[i]? with
    | none =>
        rw [hz] at h
        cases h
    | some rs =>
        rw [hz] at h
        injection h with h
        obtain ⟨gv, lv, hg, hl, hrs⟩ := List.getElem?_zipWith_eq_some.mp hz
        have hgood_g : Good gv := good_rollingMean p hp _ (good_rsiGain l) gv (List.getElem?_mem hg)
        have hgood_l : Good lv := good_rollingMean p hp _ (good_rsiLoss l) lv (List.getElem?_mem hl)
        rcases div_good_cases gv lv hgood_g hgood_l with hnan | ⟨hinf, a, ha, hga, hla⟩ |
          ⟨r, hr, hEq⟩
        · rw [← hrs, hnan, rsiOf_nan] at h
          cases h
        · subst hga hla
          exact ⟨a, ha, hg, hl⟩
        · rw [← hrs, hEq, rsiOf_num r hr] at h
          injection h with h
          have h1 : (0 : ℚ) < 1 + r := by positivity
          have : (100 : ℚ) / (1 + r) = 0 := by linarith
          rw [div_eq_zero_iff] at this
          rcases this with h100 | hzero
          · norm_num at h100
          · linarith
  · rintro ⟨g, hgpos, hg, hl⟩
    have hz : (List.zipWith FV.div (rsiAvgGain l p) (rsiAvgLoss l p))[i]? = some FV.inf := by
      rw [List.getElem?_zipWith_eq_some]
      refine ⟨FV.num g, FV.num 0, hg, hl, ?_⟩
      simp [FV.div, hgpos.ne', hgpos]
    unfold compute_rsi
    rw [List.getElem?_map, hz]
    show some (rsiOf FV.inf) = some (FV.num 100)
    rw [rsiOf_inf]

/-- C3: every defined (non-NaN) point of the computed RSI series lies in
`[0, 100]`; a point equals exactly `100` precisely when the trailing
average loss is zero and the trailing average gain is positive (the
saturating division-by-zero edge case); and the RSI value is undefined
(NaN, later dropped) at every index before the `period`-th point of the
day-over-day difference series. -/
theorem compute_rsi_spec (l : List ℚ) (p : ℕ) (hp : 0 < p) :
    (∀ i : ℕ, i < p → ∀ v : FV, (compute_rsi l p)[i]? = some v → v = FV.nan) ∧
    (∀ v ∈ compute_rsi l p, ∀ q : ℚ, v = FV.num q → 0 ≤ q ∧ q ≤ 100) ∧
    (∀ i : ℕ, (compute_rsi l p)[i]? = some (FV.num 100) ↔
       ∃ g : ℚ, 0 < g ∧ (rsiAvgGain l p)[i]? = some (FV.num g) ∧
         (rsiAvgLoss l p)[i]? = some (FV.num 0)) :=
  ⟨fun i hip v hv => compute_rsi_nan_before l p hp i hip v hv,
   compute_rsi_mem_bounds l p hp,
   fun i => compute_rsi_hundred_iff l p hp i⟩

/-- Witness for C3: the full statement instantiated at a concrete
16-point price series and the source's period of 14. -/
theorem compute_rsi_spec_witness :
    0 < 14 ∧
    ((∀ i : ℕ, i < 14 → ∀ v : FV,
        (compute_rsi [1, 2, 4, 3, 5, 6, 8, 7, 9, 10, 12, 11, 13, 14, 16, 15] 14)[i]? =
          some v → v = FV.nan) ∧
     (∀ v ∈ compute_rsi [1, 2, 4, 3, 5, 6, 8, 7, 9, 10, 12, 11, 13, 14, 16, 15] 14,
        ∀ q : ℚ, v = FV.num q → 0 ≤ q ∧ q ≤ 100) ∧
     (∀ i : ℕ,
        (compute_rsi [1, 2, 4, 3, 5, 6, 8, 7, 9, 10, 12, 11, 13, 14, 16, 15] 14)[i]? =
          some (FV.num 100) ↔
        ∃ g : ℚ, 0 < g ∧
          (rsiAvgGain [1, 2, 4, 3, 5, 6, 8, 7, 9, 10, 12, 11, 13, 14, 16, 15] 14)[i]? =
            some (FV.num g) ∧
          (rsiAvgLoss [1, 2, 4, 3, 5, 6, 8, 7, 9, 10, 12, 11, 13, 14, 16, 15] 14)[i]? =
            some (FV.num 0))) :=
  ⟨by decide, compute_rsi_spec [1, 2, 4, 3, 5, 6, 8, 7, 9, 10, 12, 11, 13, 14, 16, 15] 14
    (by decide)⟩

end MacroDashboard
